import Mathlib

/-!
Shallow embedding of the external-dns Pi-hole provider and its session
client, together with the suffix-mode DomainFilter semantics, used to
settle the specification claims.

Sources embedded:
* `provider/pihole` provider (`ApplyChanges`, entry-key merge map) —
  `src/unnamed/part_000`.
* `provider/pihole/clientV6.go` (`apply`, `do`, token renewal,
  `listRecords`, `isValidIPv4`/`isValidIPv6`).
* The suffix-mode DomainFilter, whose implementation is not under `src/`
  (only its tests are); it is modelled from the spec where noted.
-/

set_option maxRecDepth 10000

/-- Canonical DNS record (`endpoint.Endpoint` restricted to the fields the
pihole provider reads: `DNSName`, `RecordType`, `RecordTTL`, `Targets`). -/
structure Endpoint where
  dnsName : String
  recordType : String
  recordTTL : Int
  targets : List String
deriving DecidableEq, Repr

/-- Go `piholeEntryKey`: helper struct for de-duping DNS entry updates.
In the source the first field is named `Target` but is filled with the
endpoint's `DNSName`. -/
structure PiholeEntryKey where
  target : String
  recordType : String
deriving DecidableEq, Repr

/-- The key `piholeEntryKey{ep.DNSName, ep.RecordType}` built in `ApplyChanges`. -/
def entryKey (ep : Endpoint) : PiholeEntryKey :=
  { target := ep.dnsName, recordType := ep.recordType }

/-- Go `plan.Changes`: the four-list diff driving reconciliation. -/
structure Changes where
  create : List Endpoint
  delete : List Endpoint
  updateOld : List Endpoint
  updateNew : List Endpoint
deriving Repr

/-- A record-level backend call issued by `ApplyChanges` through the
`piholeAPI` interface (`deleteRecord` / `createRecord`). -/
inductive RecordCall where
  | deleteRecord (ep : Endpoint)
  | createRecord (ep : Endpoint)
deriving DecidableEq, Repr

/-- The entry key a record-level call addresses. -/
def callKey : RecordCall → PiholeEntryKey
  | .deleteRecord ep => entryKey ep
  | .createRecord ep => entryKey ep

/-- Whether a record-level call is a delete. -/
def isDeleteCall : RecordCall → Bool
  | .deleteRecord _ => true
  | .createRecord _ => false

/-- Association-list lookup, modelling Go map indexing (`m[key]`). -/
def alLookup {κ β : Type} [DecidableEq κ] : List (κ × β) → κ → Option β
  | [], _ => none
  | (k1, v1) :: rest, k => if k1 = k then some v1 else alLookup rest k

/-- Association-list store, modelling Go map assignment (`m[key] = v`). -/
def alInsert {κ β : Type} [DecidableEq κ] : List (κ × β) → κ → β → List (κ × β)
  | [], k, v => [(k, v)]
  | (k1, v1) :: rest, k, v =>
      if k1 = k then (k, v) :: rest else (k1, v1) :: alInsert rest k v

/-- Association-list removal, modelling Go `delete(m, key)`. -/
def alErase {κ β : Type} [DecidableEq κ] : List (κ × β) → κ → List (κ × β)
  | [], _ => []
  | (k1, v1) :: rest, k => if k1 = k then rest else (k1, v1) :: alErase rest k

/-- Go `slices.Compact`: drop consecutive duplicates. -/
def compactAdj : List String → List String
  | [] => []
  | [a] => [a]
  | a :: b :: rest => if a = b then compactAdj (b :: rest) else a :: compactAdj (b :: rest)

/-- Character-lexicographic comparison of strings, byte-for-byte as Go
compares strings (UTF-8 preserves code-point order). -/
def charListLe : List Char → List Char → Bool
  | [], _ => true
  | _ :: _, [] => false
  | a :: as, b :: bs => if a = b then charListLe as bs else decide (a < b)

/-- Whether `a <= b` in Go string order. -/
def strLe (a b : String) : Bool := charListLe a.data b.data

/-- Go `slices.Sort` on strings: ascending lexicographic order (insertion sort
is extensionally the same list, the order being total and equal strings
being identical). -/
def sortStrings (l : List String) : List String :=
  List.insertionSort (fun a b => strLe a b = true) l

/-- The v6 target merge: `append`, then `slices.Sort`, then `slices.Compact`. -/
def mergeTargets (old new : List String) : List String :=
  compactAdj (sortStrings (old ++ new))

/-- One iteration of the `UpdateNew` loop of `ApplyChanges`: for API v6 an
existing entry for the same key absorbs the new targets (sorted and
de-duplicated); the map slot is then overwritten. -/
def insertUpdateNew (isV6 : Bool) (m : List (PiholeEntryKey × Endpoint)) (ep : Endpoint) :
    List (PiholeEntryKey × Endpoint) :=
  let key := entryKey ep
  let ep1 :=
    if isV6 then
      match alLookup m key with
      | some existing => { existing with targets := mergeTargets existing.targets ep.targets }
      | none => ep
    else ep
  alInsert m key ep1

/-- The `updateNew` map built by `ApplyChanges` from `changes.UpdateNew`. -/
def buildUpdateNew (isV6 : Bool) (eps : List Endpoint) : List (PiholeEntryKey × Endpoint) :=
  eps.foldl (insertUpdateNew isV6) []

/-- The no-op test of the `UpdateOld` loop: for API v6 the whole target
lists must be equal (`cmp.Diff(ep.Targets, newRecord.Targets) == ""`, an
order-sensitive comparison); for API v5 only the first targets are
compared. -/
def isNoopB (isV6 : Bool) (ep newRecord : Endpoint) : Bool :=
  if isV6 then ep.targets == newRecord.targets
  else newRecord.targets.head? == ep.targets.head?

/-- The `UpdateOld` loop of `ApplyChanges`: for each old record whose key is
in the map, either suppress the pair (removing the map entry) or issue a
delete for the old record.  Returns the issued calls and the surviving
map. -/
def processOld (isV6 : Bool) : List (PiholeEntryKey × Endpoint) → List Endpoint →
    List RecordCall × List (PiholeEntryKey × Endpoint)
  | m, [] => ([], m)
  | m, ep :: rest =>
    match alLookup m (entryKey ep) with
    | none => processOld isV6 m rest
    | some newRecord =>
      if isNoopB isV6 ep newRecord then processOld isV6 (alErase m (entryKey ep)) rest
      else
        let r := processOld isV6 m rest
        (RecordCall.deleteRecord ep :: r.1, r.2)

/-- The ordered sequence of record-level backend calls issued by
`PiholeProvider.ApplyChanges` when no call returns an error: deletes from
`Delete`, then the deletes of non-suppressed update pairs, then creates
from `Create`, then creates of the surviving merged `UpdateNew` entries. -/
def applyChangesCalls (apiVersion : String) (c : Changes) : List RecordCall :=
  let isV6 := apiVersion == "6"
  let r := processOld isV6 (buildUpdateNew isV6 c.updateNew) c.updateOld
  c.delete.map RecordCall.deleteRecord ++ r.1
    ++ c.create.map RecordCall.createRecord
    ++ r.2.map (fun kv => RecordCall.createRecord kv.2)

/-- HTTP method of a backend request (`PUT` for creates, `DELETE` for
deletes, `POST` for token retrieval, `GET` for listing/introspection). -/
inductive Method where
  | put
  | delete
  | post
  | get
deriving DecidableEq, Repr

/-- One backend HTTP request issued by `piholeClientV6.apply`, identified by
the data that determines its URL (one request per target). -/
structure Request where
  method : Method
  recordType : String
  dnsName : String
  target : String
  ttl : Option Int
deriving DecidableEq, Repr

/-- Error classification used at the provider boundary: `provider.NewSoftError`
wraps soft per-record failures, everything else is hard. -/
inductive PiholeError where
  | soft (msg : String)
  | hard (msg : String)
deriving DecidableEq, Repr

/-- Go `endpoint.TTL.IsConfigured`: a TTL is configured when it is positive. -/
def ttlIsConfigured (t : Int) : Bool := t > 0

/-- Whether `urlForRecordType` succeeds: it does exactly for A, AAAA and CNAME. -/
def urlSupported (rtype : String) : Bool :=
  rtype == "A" || rtype == "AAAA" || rtype == "CNAME"

/-- Go `strings.Contains(ep.DNSName, "*")`. -/
def containsStar (s : String) : Bool := s.data.contains '*'

/-- The request built for one target inside the `apply` loop (A/AAAA use
`"target dnsName"`, CNAME uses `"dnsName,target[,ttl]"`). -/
def buildRequest (meth : Method) (ep : Endpoint) (target : String) : Request :=
  { method := meth
    recordType := ep.recordType
    dnsName := ep.dnsName
    target := target
    ttl := if ep.recordType == "CNAME" && ttlIsConfigured ep.recordTTL
           then some ep.recordTTL else none }

/-- Go `piholeClientV6.apply` for an endpoint, with the backend assumed to answer
every issued request successfully (`do`-level failures are modelled
separately by `doM`): domain-filter skip, unsupported-type skip,
missing-target skip, wildcard and multi-target-CNAME soft errors, then one
request per target. -/
def applyClient (matchFn : String → Bool) (dryRun : Bool) (meth : Method) (ep : Endpoint) :
    List Request × Option PiholeError :=
  if !matchFn ep.dnsName then ([], none)
  else if !urlSupported ep.recordType then ([], none)
  else if ep.targets.isEmpty then ([], none)
  else if containsStar ep.dnsName then
    ([], some (.soft "UNSUPPORTED: Pihole DNS names cannot return wildcard"))
  else if ep.recordType == "CNAME" && ep.targets.length > 1 then
    ([], some (.soft "UNSUPPORTED: Pihole CNAME records cannot have multiple targets"))
  else if dryRun then ([], none)
  else (ep.targets.map (buildRequest meth ep), none)

/-- The `piholeAPI` implemented by the V6 client: `createRecord` applies with
`PUT`, `deleteRecord` with `DELETE`. -/
def clientApi (matchFn : String → Bool) (dryRun : Bool) :
    RecordCall → List Request × Option PiholeError
  | .deleteRecord ep => applyClient matchFn dryRun .delete ep
  | .createRecord ep => applyClient matchFn dryRun .put ep

/-- Run record-level calls in order through an API, aborting at the first
error, exactly as each loop of `ApplyChanges` returns on a non-nil error.
Returns the issued requests and the propagated error. -/
def runCalls (api : RecordCall → List Request × Option PiholeError) :
    List RecordCall → List Request × Option PiholeError
  | [] => ([], none)
  | call :: rest =>
    let r := api call
    match r.2 with
    | some e => (r.1, some e)
    | none =>
      let r2 := runCalls api rest
      (r.1 ++ r2.1, r2.2)

/-- Go `PiholeProvider.ApplyChanges` composed with a record-level API: the calls
of `applyChangesCalls` are attempted in order and the first error aborts
the rest of the batch (each loop of `ApplyChanges` does `return err`). -/
def applyChangesRun (apiVersion : String)
    (api : RecordCall → List Request × Option PiholeError) (c : Changes) :
    List Request × Option PiholeError :=
  runCalls api (applyChangesCalls apiVersion c)

/-- Whether the character list starts with the given pattern. -/
def subAt : List Char → List Char → Bool
  | _, [] => true
  | [], _ :: _ => false
  | c :: cs, d :: ds => c == d && subAt cs ds

/-- Go `strings.Contains`: the pattern occurs somewhere in the list. -/
def hasSub : List Char → List Char → Bool
  | [], sub => subAt [] sub
  | c :: cs, sub => subAt (c :: cs) sub || hasSub cs sub

/-- Go `strings.Contains` on strings. -/
def strContainsSub (s sub : String) : Bool := hasSub s.data sub.data

/-- One backend HTTP response as the session client reads it: status code,
the error envelope's message, and the auth session payload (validity flag
and session id). -/
structure Resp where
  status : Nat
  errMessage : String
  sessionValid : Bool
  sessionSid : String
deriving DecidableEq, Repr

/-- The mutable state of `piholeClientV6` that `do` reads and writes: the
configured password and the current session token. -/
structure ClientState where
  password : String
  token : String
deriving DecidableEq, Repr

/-- Failure modes of the modelled `do`.  `noResponse` (response script
exhausted) and `noFuel` (recursion budget exhausted) are artifacts of the
finite model; `maxTries` is the "max tries reached for token renewal"
error; `httpStatus` is the final hard status error. -/
inductive DoErr where
  | noResponse
  | noFuel
  | maxTries
  | httpStatus (code : Nat)
deriving DecidableEq, Repr

/-- Go `checkTokenValidity`: with no token it reports invalid without a network
call; otherwise it consumes one response and reports the session-validity
flag of the introspection payload (the status code is not inspected). -/
def checkTokenValidity (st : ClientState) (script : List Resp) :
    Option (Bool × List Resp) :=
  if st.token == "" then some (false, script)
  else
    match script with
    | [] => none
    | r :: rest => some (r.sessionValid, rest)

/-- Go `retrieveNewToken` parameterized by the `do` call it performs: a no-op
without a configured password, otherwise one full `do` on the auth `POST`
whose session id (when non-empty) replaces the token. -/
def retrieveNewTokenG
    (doFn : ClientState → List Resp → Except DoErr Resp × ClientState × List Resp × Nat)
    (st : ClientState) (script : List Resp) :
    Except DoErr Unit × ClientState × List Resp :=
  if st.password == "" then (.ok (), st, script)
  else
    match doFn st script with
    | (.error e, st1, rest, _) => (.error e, st1, rest)
    | (.ok r, st1, rest, _) =>
      (.ok (), (if r.sessionSid != "" then { st1 with token := r.sessionSid } else st1), rest)

/-- The token-renewal loop of `do` (`tryCount := 1; for tryCount <= 3`),
counted by the remaining iterations (`rem = 4 - tryCount`): re-validate the
token, break on valid, otherwise refresh and loop; leaving the loop with
the counter exhausted yields the `maxTries` error. -/
def renewLoopG
    (refresh : ClientState → List Resp → Except DoErr Unit × ClientState × List Resp) :
    Nat → ClientState → List Resp → Except DoErr Unit × ClientState × List Resp
  | 0, st, script => (.error .maxTries, st, script)
  | rem + 1, st, script =>
    match checkTokenValidity st script with
    | none => (.error .noResponse, st, script)
    | some (valid, rest) =>
      if valid then (.ok (), st, rest)
      else
        match refresh st rest with
        | (.error e, st1, rest1) => (.error e, st1, rest1)
        | (.ok _, st1, rest1) => renewLoopG refresh rem st1 rest1

/-- Go `piholeClientV6.do` over a script of responses (one consumed per HTTP
send), with a structural fuel bound.  Returns the outcome, the final client
state, the unconsumed script, and how many times the original request was
sent.  Success statuses are 200/201/204; an error envelope whose message
contains "Item already present" and a 404 on a `DELETE` are success; a 401
with a token present runs the renewal loop and then re-issues the request;
anything else is a hard status error. -/
def doM : Nat → ClientState → Method → List Resp →
    Except DoErr Resp × ClientState × List Resp × Nat
  | 0, st, _, script => (.error .noFuel, st, script, 0)
  | fuel + 1, st, meth, script =>
    match script with
    | [] => (.error .noResponse, st, script, 0)
    | r :: rest =>
      if r.status == 200 || r.status == 201 || r.status == 204 then (.ok r, st, rest, 1)
      else if strContainsSub r.errMessage "Item already present" then (.ok r, st, rest, 1)
      else if r.status == 404 && meth == Method.delete then (.ok r, st, rest, 1)
      else if r.status == 401 && st.token != "" then
        match renewLoopG
            (retrieveNewTokenG (fun st1 scr1 => doM fuel st1 .post scr1)) 3 st rest with
        | (.error e, st1, rest1) => (.error e, st1, rest1, 1)
        | (.ok _, st1, rest1) =>
          let r2 := doM fuel st1 meth rest1
          (r2.1, r2.2.1, r2.2.2.1, 1 + r2.2.2.2)
      else (.error (.httpStatus r.status), st, rest, 1)

/-- Field separator used by `listRecords` (`r == ' ' || r == ','`). -/
def isSep (c : Char) : Bool := c == ' ' || c == ','

/-- One step of splitting into fields: separators close the current field,
other characters extend it (current field kept reversed). -/
def fieldsStep (acc : List (List Char) × List Char) (c : Char) :
    List (List Char) × List Char :=
  if isSep c then
    (if acc.2.isEmpty then acc.1 else acc.1 ++ [acc.2.reverse], [])
  else
    (acc.1, c :: acc.2)

/-- Go `strings.FieldsFunc` with the `listRecords` separator: the maximal runs
of non-separator characters, in order, empty fields dropped. -/
def fieldsOf (s : String) : List String :=
  let r := s.data.foldl fieldsStep ([], [])
  (if r.2.isEmpty then r.1 else r.1 ++ [r.2.reverse]).map String.mk

/-- Decimal digit list to value. -/
def digitsVal (l : List Char) : Nat :=
  l.foldl (fun a c => a * 10 + (c.toNat - '0'.toNat)) 0

/-- Go `strconv.ParseInt(s, 10, 64)`: optional sign, at least one digit, all
digits, 64-bit signed range. -/
def parseInt64 (s : String) : Option Int :=
  let core : List Char → Bool → Option Int := fun ds neg =>
    if ds.isEmpty || !ds.all Char.isDigit then none
    else
      let v := digitsVal ds
      if neg then (if v ≤ 2 ^ 63 then some (-(v : Int)) else none)
      else (if v ≤ 2 ^ 63 - 1 then some (v : Int) else none)
  match s.data with
  | '+' :: ds => core ds false
  | '-' :: ds => core ds true
  | ds => core ds false

/-- First character of the candidate that is one of `.`, `:` or `%`
(`netip.ParseAddr` dispatches on it). -/
def scanKind : List Char → Option Char
  | [] => none
  | c :: cs => if c == '.' || c == ':' || c == '%' then some c else scanKind cs

/-- Value of a decimal field. -/
def ipv4FieldOk (f : List Char) : Bool :=
  !f.isEmpty && f.all Char.isDigit
    && (f.length == 1 || f.headD ' ' != '0')
    && digitsVal f ≤ 255

/-- The `netip` `parseIPv4` acceptance: exactly four dot-separated fields, each a decimal
octet without leading zeros. -/
def ipv4Ok (l : List Char) : Bool :=
  let fs := l.splitOn '.'
  fs.length == 4 && fs.all ipv4FieldOk

/-- Hex digit test for IPv6 groups. -/
def isHexDigitCh (c : Char) : Bool :=
  c.isDigit || ('a' ≤ c && c ≤ 'f') || ('A' ≤ c && c ≤ 'F')

/-- Count the leading hex digits and return the remainder. -/
def countHex : List Char → Nat × List Char
  | [] => (0, [])
  | c :: cs =>
    if isHexDigitCh c then
      let r := countHex cs
      (r.1 + 1, r.2)
    else (0, c :: cs)

/-- Split the candidate at the first `%`: body before it, and whether the
zone (if any) is non-empty as `netip` requires. -/
def splitZone : List Char → List Char × Bool
  | [] => ([], true)
  | c :: cs =>
    if c == '%' then ([], !cs.isEmpty)
    else
      let r := splitZone cs
      (c :: r.1, r.2)

/-- Final acceptance of `parseIPv6`: fewer than 16 bytes requires an
ellipsis to expand, exactly 16 bytes forbids one. -/
def ipv6Final (i : Nat) (ell : Bool) : Bool :=
  if i < 16 then ell else !ell

/-- The group-reading loop of `netip` `parseIPv6` (`i` bytes filled, `ell` =
ellipsis seen): groups of one to four hex digits separated by colons, at
most one `::`, an optional embedded IPv4 filling the last four bytes, and
no trailing characters. -/
def ipv6Body : Nat → List Char → Nat → Bool → Bool
  | 0, _, _, _ => false
  | fuel + 1, s, i, ell =>
    if 16 ≤ i then (if s.isEmpty then ipv6Final i ell else false)
    else
      let r := countHex s
      if r.1 == 0 || 4 < r.1 then false
      else
        match r.2 with
        | [] => ipv6Final (i + 2) ell
        | '.' :: _ =>
          if !ell && i != 12 then false
          else if 16 < i + 4 then false
          else if ipv4Ok s then ipv6Final (i + 4) ell else false
        | ':' :: [] => false
        | ':' :: ':' :: rest2 =>
          if ell then false
          else if rest2.isEmpty then ipv6Final (i + 2) true
          else ipv6Body fuel rest2 (i + 2) true
        | ':' :: rest1 => ipv6Body fuel rest1 (i + 2) ell
        | _ => false

/-- The `netip` `parseIPv6` acceptance: zone split, optional leading `::`, then
the group loop. -/
def ipv6Ok (l : List Char) : Bool :=
  let z := splitZone l
  if !z.2 then false
  else
    match z.1 with
    | ':' :: ':' :: rest =>
      if rest.isEmpty then true else ipv6Body (rest.length + 1) rest 0 true
    | body => ipv6Body (body.length + 1) body 0 false

/-- Go `isValidIPv4`: `netip.ParseAddr` parses the string as IPv4 (first special
character is a dot) and the address `Is4`. -/
def isValidIPv4 (s : String) : Bool :=
  match scanKind s.data with
  | some '.' => ipv4Ok s.data
  | _ => false

/-- Go `isValidIPv6`: `netip.ParseAddr` parses the string as IPv6 (first special
character is a colon) and the address `Is6`. -/
def isValidIPv6 (s : String) : Bool :=
  match scanKind s.data with
  | some ':' => ipv6Ok s.data
  | _ => false

/-- Accumulate one listed record into the per-name endpoint map of
`listRecords` (`endpoint.NewEndpointWithTTL` is modelled as plain record
construction; an existing endpoint for the same name has the new target
appended to its targets). -/
def addListed (m : List (String × Endpoint)) (dnsName rtype : String) (ttl : Int)
    (target : String) : List (String × Endpoint) :=
  let ep : Endpoint :=
    { dnsName := dnsName, recordType := rtype, recordTTL := ttl, targets := [target] }
  match alLookup m dnsName with
  | some oldEp => alInsert m dnsName { ep with targets := oldEp.targets ++ [target] }
  | none => alInsert m dnsName ep

/-- One iteration of the `listRecords` result loop: split the line, skip it
when fewer than two fields remain, keep A records only for valid IPv4
targets and AAAA records only for valid IPv6 targets, and read the CNAME
layout (`DNSName,target[,ttl]`, ttl only when exactly three fields and it
parses). -/
def listStep (rtype : String) (m : List (String × Endpoint)) (rec : String) :
    List (String × Endpoint) :=
  match fieldsOf rec with
  | r0 :: r1 :: rest =>
    if rtype == "A" then
      if isValidIPv4 r0 then addListed m r1 rtype 0 r0 else m
    else if rtype == "AAAA" then
      if isValidIPv6 r0 then addListed m r1 rtype 0 r0 else m
    else if rtype == "CNAME" then
      let ttl : Int :=
        match rest with
        | [t] =>
          match parseInt64 t with
          | some v => v
          | none => 0
        | _ => 0
      addListed m r0 rtype ttl r1
    else addListed m r1 rtype 0 r0
  | _ => m

/-- Go `piholeClientV6.listRecords` applied to the entries returned by
`getConfigValue`: the endpoints accumulated per DNS name. -/
def listRecords (rtype : String) (results : List String) : List Endpoint :=
  (results.foldl (listStep rtype) []).map (fun kv => kv.2)

/-- Trim leading and trailing whitespace. -/
def trimWS (l : List Char) : List Char :=
  ((l.dropWhile Char.isWhitespace).reverse.dropWhile Char.isWhitespace).reverse

/-- Strip one trailing dot. -/
def stripTrailingDot (l : List Char) : List Char :=
  if l.getLast? = some '.' then l.dropLast else l

/-- Modelled from the spec: normalization of a domain name or rule — "trim
whitespace, strip one trailing `.`, lower-case".  (The implementation of
the DomainFilter is not under `src/`, only its tests; the spec's
Unicode-to-ASCII-compatible encoding step is not modelled, all names used
here being ASCII.) -/
def normalizeDomain (s : String) : String :=
  String.mk ((stripTrailingDot (trimWS s.data)).map Char.toLower)

/-- Whether a rule starts with a dot. -/
def headIsDot : List Char → Bool
  | '.' :: _ => true
  | _ => false

/-- Modelled from the spec: one suffix rule against a normalized candidate —
a rule with a leading dot matches names having it as a suffix (so strict
subdomains only); a rule without one matches the apex exactly or any name
with `"." ++ rule` as a suffix. -/
def ruleMatches (rule name : List Char) : Bool :=
  if headIsDot rule then rule.isSuffixOf name
  else name == rule || ('.' :: rule).isSuffixOf name

/-- Modelled from the spec: rule normalization — empty and whitespace-only
rules are discarded. -/
def prepareFilters (l : List String) : List String :=
  (l.map normalizeDomain).filter (fun f => !f.data.isEmpty)

/-- Modelled from the spec: `matchFilter` over one rule set on an
already-normalized candidate, with the given value for an empty set. -/
def matchFilter (filters : List String) (domain : String) (emptyval : Bool) : Bool :=
  if filters.isEmpty then emptyval
  else filters.any (fun f => ruleMatches f.data domain.data)

/-- Modelled from the spec: suffix-mode `DomainFilter.Match` — an empty
include set matches everything, exclusions veto. -/
def domainFilterMatch (includes excludes : List String) (domain : String) : Bool :=
  let n := normalizeDomain domain
  matchFilter (prepareFilters includes) n true
    && !(matchFilter (prepareFilters excludes) n false)

/-- The effect of one `UpdateNew` record on the map slot of its own key:
merged into the existing entry for v6, plain overwrite otherwise. -/
def mergeStep (isV6 : Bool) (acc : Option Endpoint) (e : Endpoint) : Endpoint :=
  match acc with
  | some ex => if isV6 then { ex with targets := mergeTargets ex.targets e.targets } else e
  | none => e

/-- A rule (or name) with a leading dot prepended. -/
def withLeadingDot (rule : String) : String := String.mk ('.' :: rule.data)

/-- The name `sub.rule`. -/
def subdomainOf (sub rule : String) : String := String.mk (sub.data ++ '.' :: rule.data)

/-- The endpoint `{name: a, type: A}` with the given targets. -/
def aEndpoint (ts : List String) : Endpoint :=
  { dnsName := "a", recordType := "A", recordTTL := 0, targets := ts }

/-- Update pair whose target sets are equal but ordered differently. -/
def oldReordered : Endpoint := aEndpoint ["2.2.2.2", "1.1.1.1"]

/-- See `oldReordered`. -/
def newReordered : Endpoint := aEndpoint ["1.1.1.1", "2.2.2.2"]

/-- The spec's no-op example record. -/
def noopRecord : Endpoint := aEndpoint ["1.2.3.4"]

/-- Two `UpdateNew` records sharing an entry key, with overlapping unsorted
targets. -/
def mergeLeft : Endpoint := aEndpoint ["b", "a"]

/-- See `mergeLeft`. -/
def mergeRight : Endpoint := aEndpoint ["c", "a"]

/-- The merged record produced for `mergeLeft`/`mergeRight`. -/
def mergedPair : Endpoint := aEndpoint ["a", "b", "c"]

/-- A single `UpdateNew` record with duplicated, unsorted targets. -/
def dupSingleton : Endpoint := aEndpoint ["b", "b", "a"]

/-- A CNAME record with two targets (unsupported shape). -/
def cnameTwoTargets : Endpoint :=
  { dnsName := "c.example.com", recordType := "CNAME", recordTTL := 0,
    targets := ["t1.example.com", "t2.example.com"] }

/-- A well-formed A record batched after `cnameTwoTargets`. -/
def plainARecord : Endpoint :=
  { dnsName := "a.example.com", recordType := "A", recordTTL := 0, targets := ["1.2.3.4"] }

/-- A batch whose first create has an unsupported shape and whose second is
well-formed. -/
def softBatch : Changes :=
  { create := [cnameTwoTargets, plainARecord], delete := [], updateOld := [], updateNew := [] }

/-- Client state with a configured password and a live token. -/
def tokState : ClientState := { password := "pw", token := "tok" }

/-- Client state with no session token. -/
def noTokState : ClientState := { password := "pw", token := "" }

/-- A plain 200 response. -/
def respOK : Resp := { status := 200, errMessage := "", sessionValid := false, sessionSid := "" }

/-- A 401 response. -/
def resp401 : Resp :=
  { status := 401, errMessage := "unauthorized", sessionValid := false, sessionSid := "" }

/-- A 404 response. -/
def resp404 : Resp :=
  { status := 404, errMessage := "not found", sessionValid := false, sessionSid := "" }

/-- A non-404 error response whose envelope reports the entity as already
present. -/
def respAlready : Resp :=
  { status := 500, errMessage := "Item already present", sessionValid := false, sessionSid := "" }

/-- Introspection response reporting the token valid. -/
def respIntroValid : Resp :=
  { status := 200, errMessage := "", sessionValid := true, sessionSid := "" }

/-- Introspection response reporting the token invalid. -/
def respIntroInvalid : Resp :=
  { status := 200, errMessage := "", sessionValid := false, sessionSid := "" }

/-- Successful auth response carrying a fresh session id. -/
def respAuth : Resp :=
  { status := 200, errMessage := "", sessionValid := false, sessionSid := "newtok" }

/-- A mixed IPv4/IPv6 hosts listing. -/
def hostsMixed : List String := ["1.2.3.4 a.example.com", "fe80::1 a.example.com"]

theorem alLookup_alInsert_self {κ β : Type} [DecidableEq κ] (m : List (κ × β)) (k : κ) (v : β) :
    alLookup (alInsert m k v) k = some v := by
  induction m with
  | nil => simp [alInsert, alLookup]
  | cons kv rest ih =>
    by_cases h : kv.1 = k
    · simp [alInsert, alLookup, h]
    · simp [alInsert, alLookup, h, ih]

theorem alLookup_alInsert_ne {κ β : Type} [DecidableEq κ] (m : List (κ × β)) (k k2 : κ) (v : β)
    (h : k ≠ k2) : alLookup (alInsert m k v) k2 = alLookup m k2 := by
  induction m with
  | nil => simp [alInsert, alLookup, h]
  | cons kv rest ih =>
    by_cases h1 : kv.1 = k
    · simp [alInsert, alLookup, h1, h]
    · simp only [alInsert, h1, if_false]
      by_cases h2 : kv.1 = k2 <;> simp [alLookup, h2, ih]

theorem alLookup_alErase_ne {κ β : Type} [DecidableEq κ] (m : List (κ × β)) (k k2 : κ)
    (h : k ≠ k2) : alLookup (alErase m k) k2 = alLookup m k2 := by
  induction m with
  | nil => simp [alErase]
  | cons kv rest ih =>
    by_cases h1 : kv.1 = k
    · have h2 : kv.1 ≠ k2 := h1 ▸ h
      simp [alErase, alLookup, h1, h2, h]
    · by_cases h2 : kv.1 = k2 <;>
        simp [alErase, alLookup, h1, h2, h, Ne.symm h, ih]

theorem mem_alErase {κ β : Type} [DecidableEq κ] (m : List (κ × β)) (k : κ)
    (kv : κ × β) (h : kv ∈ alErase m k) : kv ∈ m := by
  induction m with
  | nil => simp [alErase] at h
  | cons kv1 rest ih =>
    by_cases h1 : kv1.1 = k
    · simp only [alErase, h1, if_true] at h
      exact List.mem_cons_of_mem _ h
    · simp only [alErase, h1, if_false, List.mem_cons] at h
      rcases h with h | h
      · exact h ▸ List.mem_cons_self _ _
      · exact List.mem_cons_of_mem _ (ih h)

theorem mem_alInsert {κ β : Type} [DecidableEq κ] (m : List (κ × β)) (k : κ) (v : β)
    (kv : κ × β) (h : kv ∈ alInsert m k v) : kv = (k, v) ∨ kv ∈ m := by
  induction m with
  | nil => simpa [alInsert] using h
  | cons kv1 rest ih =>
    by_cases h1 : kv1.1 = k
    · simp only [alInsert, h1, if_true, List.mem_cons] at h
      rcases h with h | h
      · exact Or.inl h
      · exact Or.inr (List.mem_cons_of_mem _ h)
    · simp only [alInsert, h1, if_false, List.mem_cons] at h
      rcases h with h | h
      · exact Or.inr (h ▸ List.mem_cons_self _ _)
      · rcases ih h with h | h
        · exact Or.inl h
        · exact Or.inr (List.mem_cons_of_mem _ h)

theorem alLookup_mem {κ β : Type} [DecidableEq κ] (m : List (κ × β)) (k : κ) (v : β)
    (h : alLookup m k = some v) : (k, v) ∈ m := by
  induction m with
  | nil => simp [alLookup] at h
  | cons kv rest ih =>
    by_cases h1 : kv.1 = k
    · simp only [alLookup, h1, if_true, Option.some.injEq] at h
      have hkv : kv = (k, v) := by
        obtain ⟨a, b⟩ := kv
        simp only at h1 h
        rw [h1, h]
      rw [hkv]
      exact List.mem_cons_self _ _
    · simp only [alLookup, h1, if_false] at h
      exact List.mem_cons_of_mem _ (ih h)

theorem alLookup_eq_none_of_forall {κ β : Type} [DecidableEq κ] (m : List (κ × β)) (k : κ)
    (h : ∀ kv ∈ m, kv.1 ≠ k) : alLookup m k = none := by
  induction m with
  | nil => simp [alLookup]
  | cons kv rest ih =>
    have h1 : kv.1 ≠ k := h kv (List.mem_cons_self _ _)
    simp only [alLookup, h1, if_false]
    exact ih (fun kv2 h2 => h kv2 (List.mem_cons_of_mem _ h2))

theorem forall_ne_of_alLookup_eq_none {κ β : Type} [DecidableEq κ] (m : List (κ × β)) (k : κ)
    (h : alLookup m k = none) : ∀ kv ∈ m, kv.1 ≠ k := by
  induction m with
  | nil => intro kv hkv; simp at hkv
  | cons kv1 rest ih =>
    by_cases h1 : kv1.1 = k
    · simp [alLookup, h1] at h
    · simp only [alLookup, h1, if_false] at h
      intro kv hkv
      rcases List.mem_cons.1 hkv with hkv | hkv
      · exact hkv ▸ h1
      · exact ih h kv hkv

theorem processOld_calls_from_olds (isV6 : Bool) :
    ∀ (olds : List Endpoint) (m : List (PiholeEntryKey × Endpoint))
      (x : RecordCall), x ∈ (processOld isV6 m olds).1 →
      ∃ o, o ∈ olds ∧ x = RecordCall.deleteRecord o := by
  intro olds
  induction olds with
  | nil => intro m x hx; simp [processOld] at hx
  | cons ep rest ih =>
    intro m x hx
    simp only [processOld] at hx
    rcases hlook : alLookup m (entryKey ep) with _ | nr
    · rw [hlook] at hx
      rcases ih m x hx with ⟨o, ho, hxo⟩
      exact ⟨o, List.mem_cons_of_mem _ ho, hxo⟩
    · rw [hlook] at hx
      dsimp only at hx
      by_cases hnoop : isNoopB isV6 ep nr = true
      · rw [if_pos hnoop] at hx
        rcases ih _ x hx with ⟨o, ho, hxo⟩
        exact ⟨o, List.mem_cons_of_mem _ ho, hxo⟩
      · rw [if_neg hnoop] at hx
        rcases List.mem_cons.1 hx with hx | hx
        · exact ⟨ep, List.mem_cons_self _ _, hx⟩
        · rcases ih m x hx with ⟨o, ho, hxo⟩
          exact ⟨o, List.mem_cons_of_mem _ ho, hxo⟩

/-- C2: in the call sequence of `ApplyChanges`, every delete precedes every
create: for any pair of calls in emission order, the earlier one is a
delete or the later one is a create.  In particular every `Delete`-list
deletion precedes all creates, and the delete of a changed update pair
precedes the create of its replacement. -/
theorem deletes_precede_creates (apiVersion : String) (c : Changes) :
    (applyChangesCalls apiVersion c).Pairwise
      (fun x y => isDeleteCall x = true ∨ isDeleteCall y = false) := by
  unfold applyChangesCalls
  set isV6 := apiVersion == "6" with hV6
  set r := processOld isV6 (buildUpdateNew isV6 c.updateNew) c.updateOld with hr
  have hdel : ∀ x ∈ c.delete.map RecordCall.deleteRecord ++ r.1, isDeleteCall x = true := by
    intro x hx
    rcases List.mem_append.1 hx with hx | hx
    · rcases List.mem_map.1 hx with ⟨d, _, hdx⟩
      rw [← hdx]; rfl
    · rcases processOld_calls_from_olds isV6 c.updateOld _ x hx with ⟨o, _, hxo⟩
      rw [hxo]; rfl
  have hcre : ∀ x ∈ c.create.map RecordCall.createRecord
      ++ r.2.map (fun kv => RecordCall.createRecord kv.2), isDeleteCall x = false := by
    intro x hx
    rcases List.mem_append.1 hx with hx | hx
    · rcases List.mem_map.1 hx with ⟨d, _, hdx⟩
      rw [← hdx]; rfl
    · rcases List.mem_map.1 hx with ⟨d, _, hdx⟩
      rw [← hdx]; rfl
  have hsplit : c.delete.map RecordCall.deleteRecord ++ r.1
      ++ c.create.map RecordCall.createRecord
      ++ r.2.map (fun kv => RecordCall.createRecord kv.2)
      = (c.delete.map RecordCall.deleteRecord ++ r.1)
        ++ (c.create.map RecordCall.createRecord
            ++ r.2.map (fun kv => RecordCall.createRecord kv.2)) := by
    simp [List.append_assoc]
  rw [hsplit, List.pairwise_append]
  refine ⟨List.pairwise_of_forall_mem_list (fun a ha b _ => Or.inl (hdel a ha)), ?_, ?_⟩
  · exact List.pairwise_of_forall_mem_list (fun a _ b hb => Or.inr (hcre b hb))
  · intro a ha b _
    exact Or.inl (hdel a ha)

theorem alLookup_eq_none_of_not_mem_keys {κ β : Type} [DecidableEq κ]
    (m : List (κ × β)) (k : κ) (h : k ∉ m.map Prod.fst) : alLookup m k = none := by
  induction m with
  | nil => rfl
  | cons kv rest ih =>
    simp only [List.map_cons, List.mem_cons] at h
    push_neg at h
    simp only [alLookup, Ne.symm h.1, if_false]
    exact ih h.2

theorem alErase_sublist {κ β : Type} [DecidableEq κ] (m : List (κ × β)) (k : κ) :
    List.Sublist (alErase m k) m := by
  induction m with
  | nil => simp [alErase]
  | cons kv rest ih =>
    by_cases h1 : kv.1 = k
    · simp only [alErase, h1, if_true]
      exact List.sublist_cons_self _ _
    · simp only [alErase, h1, if_false]
      exact ih.cons₂ _

theorem alErase_keys_nodup {κ β : Type} [DecidableEq κ] (m : List (κ × β)) (k : κ)
    (h : (m.map Prod.fst).Nodup) : ((alErase m k).map Prod.fst).Nodup :=
  h.sublist ((alErase_sublist m k).map Prod.fst)

theorem alLookup_alErase_self {κ β : Type} [DecidableEq κ] (m : List (κ × β)) (k : κ)
    (h : (m.map Prod.fst).Nodup) : alLookup (alErase m k) k = none := by
  induction m with
  | nil => rfl
  | cons kv rest ih =>
    simp only [List.map_cons, List.nodup_cons] at h
    by_cases h1 : kv.1 = k
    · simp only [alErase, h1, if_true]
      exact alLookup_eq_none_of_not_mem_keys rest k (h1 ▸ h.1)
    · simp only [alErase, h1, if_false, alLookup, h1]
      exact ih h.2

theorem alInsert_keys_nodup {κ β : Type} [DecidableEq κ] (m : List (κ × β)) (k : κ) (v : β)
    (h : (m.map Prod.fst).Nodup) : ((alInsert m k v).map Prod.fst).Nodup := by
  induction m with
  | nil => simp [alInsert]
  | cons kv rest ih =>
    simp only [List.map_cons, List.nodup_cons] at h
    by_cases h1 : kv.1 = k
    · simp only [alInsert, h1, if_true, List.map_cons, List.nodup_cons]
      exact ⟨h1 ▸ h.1, h.2⟩
    · simp only [alInsert, h1, if_false, List.map_cons, List.nodup_cons]
      refine ⟨?_, ih h.2⟩
      intro hc
      rcases List.mem_map.1 hc with ⟨kv2, hkv2, hfst⟩
      rcases mem_alInsert rest k v kv2 hkv2 with he | he
      · rw [he] at hfst
        exact h1 hfst.symm
      · exact h.1 (hfst ▸ List.mem_map_of_mem Prod.fst he)

theorem buildUpdateNew_keys_nodup (isV6 : Bool) (eps : List Endpoint) :
    ((buildUpdateNew isV6 eps).map Prod.fst).Nodup := by
  have hgen : ∀ (l : List Endpoint) (m : List (PiholeEntryKey × Endpoint)),
      (m.map Prod.fst).Nodup → ((l.foldl (insertUpdateNew isV6) m).map Prod.fst).Nodup := by
    intro l
    induction l with
    | nil => intro m hm; simpa using hm
    | cons e rest ih =>
      intro m hm
      simp only [List.foldl_cons]
      exact ih _ (alInsert_keys_nodup m (entryKey e) _ hm)
  exact hgen eps [] (by simp)

theorem processOld_lookup_none (isV6 : Bool) (k : PiholeEntryKey) :
    ∀ (olds : List Endpoint) (m : List (PiholeEntryKey × Endpoint)),
      alLookup m k = none → alLookup (processOld isV6 m olds).2 k = none := by
  intro olds
  induction olds with
  | nil => intro m hm; simpa [processOld] using hm
  | cons ep rest ih =>
    intro m hm
    simp only [processOld]
    rcases hlook : alLookup m (entryKey ep) with _ | nr
    · exact ih m hm
    · dsimp only
      by_cases hnoop : isNoopB isV6 ep nr = true
      · rw [if_pos hnoop]
        refine ih _ ?_
        by_cases hk : entryKey ep = k
        · rw [← hk] at hm
          rw [hm] at hlook
          cases hlook
        · rw [alLookup_alErase_ne m (entryKey ep) k hk]
          exact hm
      · rw [if_neg hnoop]
        exact ih m hm

theorem processOld_map_subset (isV6 : Bool) :
    ∀ (olds : List Endpoint) (m : List (PiholeEntryKey × Endpoint))
      (kv : PiholeEntryKey × Endpoint), kv ∈ (processOld isV6 m olds).2 → kv ∈ m := by
  intro olds
  induction olds with
  | nil => intro m kv h; simpa [processOld] using h
  | cons ep rest ih =>
    intro m kv h
    simp only [processOld] at h
    rcases hlook : alLookup m (entryKey ep) with _ | nr <;> rw [hlook] at h
    · exact ih m kv h
    · dsimp only at h
      by_cases hnoop : isNoopB isV6 ep nr = true
      · rw [if_pos hnoop] at h
        exact mem_alErase m (entryKey ep) kv (ih _ kv h)
      · rw [if_neg hnoop] at h
        exact ih m kv h

theorem processOld_suppress (k : PiholeEntryKey) (nr : Endpoint) :
    ∀ (olds : List Endpoint) (m : List (PiholeEntryKey × Endpoint)) (old : Endpoint),
      old ∈ olds → (olds.map entryKey).Nodup → (m.map Prod.fst).Nodup →
      entryKey old = k → alLookup m k = some nr → old.targets = nr.targets →
      (∀ x ∈ (processOld true m olds).1, callKey x ≠ k) ∧
        alLookup (processOld true m olds).2 k = none := by
  intro olds
  induction olds with
  | nil => intro m old hmem; simp at hmem
  | cons ep rest ih =>
    intro m old hmem hnodup hmnd hkey hlookm heq
    have hnodup1 : (rest.map entryKey).Nodup := (List.nodup_cons.1 hnodup).2
    have hnotin : entryKey ep ∉ rest.map entryKey := (List.nodup_cons.1 hnodup).1
    rcases List.mem_cons.1 hmem with hmem | hmem
    · -- the suppressed pair is at the head
      subst hmem
      simp only [processOld, hkey, hlookm]
      have hnoop : isNoopB true old nr = true := by
        simp [isNoopB, heq]
      rw [if_pos hnoop]
      constructor
      · intro x hx
        rcases processOld_calls_from_olds true rest _ x hx with ⟨o, ho, hxo⟩
        rw [hxo]
        intro hc
        rw [callKey] at hc
        have hmemk : entryKey o ∈ rest.map entryKey := List.mem_map_of_mem entryKey ho
        rw [hc, ← hkey] at hmemk
        exact hnotin hmemk
      · exact processOld_lookup_none true k rest _ (alLookup_alErase_self m k hmnd)
    · -- the suppressed pair is in the tail
      have hkne : entryKey ep ≠ k := by
        intro hc
        have hmemk : entryKey old ∈ rest.map entryKey := List.mem_map_of_mem entryKey hmem
        rw [hkey, ← hc] at hmemk
        exact hnotin hmemk
      simp only [processOld]
      rcases hlook : alLookup m (entryKey ep) with _ | nr2
      · exact ih m old hmem hnodup1 hmnd hkey hlookm heq
      · dsimp only
        by_cases hnoop : isNoopB true ep nr2 = true
        · rw [if_pos hnoop]
          refine ih _ old hmem hnodup1 (alErase_keys_nodup m _ hmnd) hkey ?_ heq
          rw [alLookup_alErase_ne m (entryKey ep) k hkne]
          exact hlookm
        · rw [if_neg hnoop]
          have htail := ih m old hmem hnodup1 hmnd hkey hlookm heq
          refine ⟨?_, htail.2⟩
          intro x hx
          rcases List.mem_cons.1 hx with hx | hx
          · rw [hx, callKey]
            exact hkne
          · exact htail.1 x hx

theorem buildUpdateNew_key_inv (isV6 : Bool) (eps : List Endpoint) :
    ∀ kv ∈ buildUpdateNew isV6 eps, entryKey kv.2 = kv.1 := by
  have hgen : ∀ (l : List Endpoint) (m : List (PiholeEntryKey × Endpoint)),
      (∀ kv ∈ m, entryKey kv.2 = kv.1) →
      ∀ kv ∈ l.foldl (insertUpdateNew isV6) m, entryKey kv.2 = kv.1 := by
    intro l
    induction l with
    | nil => intro m hm; simpa using hm
    | cons e rest ih =>
      intro m hm
      simp only [List.foldl_cons]
      refine ih _ ?_
      intro kv hkv
      unfold insertUpdateNew at hkv
      rcases mem_alInsert _ _ _ kv hkv with he | he
      · rw [he]
        by_cases hv : isV6 = true
        · rw [hv]
          dsimp only
          rcases hlook : alLookup m (entryKey e) with _ | ex
          · rfl
          · have hex : entryKey ex = entryKey e := hm _ (alLookup_mem m _ ex hlook)
            simp only [entryKey] at *
            simpa using hex
        · have hv2 : isV6 = false := by
            cases isV6
            · rfl
            · exact absurd rfl hv
          rw [hv2]
          rfl
      · exact hm kv he
  exact hgen eps [] (by intro kv h; cases h)

/-- C1 (amended): for the v6 backend, an `UpdateOld` record whose entry key
maps in the merged `UpdateNew` map to a record with the *identical target
list* (the source compares with order-sensitive `cmp.Diff`, not set
equality) is fully suppressed: no call of the batch addresses its entry
key, provided the key does not also occur in `Delete`/`Create` and the
`UpdateOld` keys are distinct (the ChangeSet invariant). -/
theorem v6_noop_update_suppressed (c : Changes) (old nr : Endpoint)
    (hmem : old ∈ c.updateOld)
    (hnodup : (c.updateOld.map entryKey).Nodup)
    (hlook : alLookup (buildUpdateNew true c.updateNew) (entryKey old) = some nr)
    (heq : old.targets = nr.targets)
    (hdel : ∀ d ∈ c.delete, entryKey d ≠ entryKey old)
    (hcre : ∀ d ∈ c.create, entryKey d ≠ entryKey old) :
    ∀ call ∈ applyChangesCalls "6" c, callKey call ≠ entryKey old := by
  intro call hcall
  have hv6 : ("6" == "6") = true := rfl
  unfold applyChangesCalls at hcall
  rw [hv6] at hcall
  have hsup := processOld_suppress (entryKey old) nr c.updateOld
    (buildUpdateNew true c.updateNew) old hmem hnodup
    (buildUpdateNew_keys_nodup true c.updateNew) rfl hlook heq
  rcases List.mem_append.1 hcall with hcall | hcall
  · rcases List.mem_append.1 hcall with hcall | hcall
    · rcases List.mem_append.1 hcall with hcall | hcall
      · rcases List.mem_map.1 hcall with ⟨d, hd, hdx⟩
        rw [← hdx]
        exact hdel d hd
      · exact hsup.1 call hcall
    · rcases List.mem_map.1 hcall with ⟨d, hd, hdx⟩
      rw [← hdx]
      exact hcre d hd
  · rcases List.mem_map.1 hcall with ⟨kv, hkv, hkvx⟩
    rw [← hkvx]
    show entryKey kv.2 ≠ entryKey old
    have hinv : entryKey kv.2 = kv.1 :=
      buildUpdateNew_key_inv true c.updateNew kv
        (processOld_map_subset true c.updateOld _ kv hkv)
    rw [hinv]
    exact forall_ne_of_alLookup_eq_none _ _ hsup.2 kv hkv

/-- C1 witness: for `UpdateOld=[{a,A,[1.2.3.4]}]`, `UpdateNew=[{a,A,[1.2.3.4]}]`
the v6 reconciler issues no delete for the record. -/
theorem v6_noop_update_suppressed_witness :
    RecordCall.deleteRecord noopRecord ∉ applyChangesCalls "6"
      { create := [], delete := [], updateOld := [noopRecord], updateNew := [noopRecord] } :=
  fun h =>
    v6_noop_update_suppressed
      { create := [], delete := [], updateOld := [noopRecord], updateNew := [noopRecord] }
      noopRecord noopRecord (by decide) (by decide) (by decide) rfl
      (by intro d hd; cases hd) (by intro d hd; cases hd)
      (RecordCall.deleteRecord noopRecord) h rfl

/-- C1 counterexample: with set-equal but differently ordered target lists,
the key is present in the merged `UpdateNew` map with a set-equal target
list, yet the v6 reconciler issues a delete and a create for the record —
the source compares target lists with order-sensitive `cmp.Diff`, not set
equality. -/
theorem v6_noop_update_set_equality_cex :
    oldReordered.targets.Perm newReordered.targets
      ∧ alLookup (buildUpdateNew true [newReordered]) (entryKey oldReordered) = some newReordered
      ∧ applyChangesCalls "6"
          { create := [], delete := [], updateOld := [oldReordered], updateNew := [newReordered] }
        = [RecordCall.deleteRecord oldReordered, RecordCall.createRecord newReordered] := by
  refine ⟨by decide, by decide, by decide⟩

theorem strLe_refl (a : String) : strLe a a = true := by
  unfold strLe
  induction a.data with
  | nil => rfl
  | cons c cs ih => simpa [charListLe] using ih

theorem charListLe_total : ∀ a b : List Char,
    charListLe a b = true ∨ charListLe b a = true := by
  intro a
  induction a with
  | nil => intro b; exact Or.inl rfl
  | cons c cs ih =>
    intro b
    cases b with
    | nil => exact Or.inr rfl
    | cons d ds =>
      by_cases hcd : c = d
      · subst hcd
        simpa [charListLe] using ih ds
      · rcases lt_or_gt_of_ne hcd with hlt | hlt
        · exact Or.inl (by simp [charListLe, hcd, hlt])
        · exact Or.inr (by simp [charListLe, Ne.symm hcd, hlt])

theorem strLe_total (a b : String) : strLe a b = true ∨ strLe b a = true :=
  charListLe_total a.data b.data

theorem charListLe_trans : ∀ a b c : List Char,
    charListLe a b = true → charListLe b c = true → charListLe a c = true := by
  intro a
  induction a with
  | nil => intro b c _ _; rfl
  | cons x xs ih =>
    intro b c h1 h2
    cases b with
    | nil => simp [charListLe] at h1
    | cons y ys =>
      cases c with
      | nil => simp [charListLe] at h2
      | cons z zs =>
        by_cases hxy : x = y
        · subst hxy
          rw [charListLe, if_pos rfl] at h1
          by_cases hyz : x = z
          · subst hyz
            rw [charListLe, if_pos rfl] at h2
            rw [charListLe, if_pos rfl]
            exact ih ys zs h1 h2
          · rw [charListLe, if_neg hyz] at h2
            rw [charListLe, if_neg hyz]
            exact h2
        · rw [charListLe, if_neg hxy, decide_eq_true_eq] at h1
          by_cases hyz : y = z
          · subst hyz
            rw [charListLe, if_neg hxy, decide_eq_true_eq]
            exact h1
          · rw [charListLe, if_neg hyz, decide_eq_true_eq] at h2
            have hxz : x < z := lt_trans h1 h2
            rw [charListLe, if_neg (ne_of_lt hxz), decide_eq_true_eq]
            exact hxz

theorem strLe_trans (a b c : String) :
    strLe a b = true → strLe b c = true → strLe a c = true :=
  charListLe_trans a.data b.data c.data

theorem charListLe_antisymm : ∀ a b : List Char,
    charListLe a b = true → charListLe b a = true → a = b := by
  intro a
  induction a with
  | nil =>
    intro b h1 h2
    cases b with
    | nil => rfl
    | cons d ds => simp [charListLe] at h2
  | cons c cs ih =>
    intro b h1 h2
    cases b with
    | nil => simp [charListLe] at h1
    | cons d ds =>
      by_cases hcd : c = d
      · subst hcd
        rw [charListLe, if_pos rfl] at h1 h2
        rw [ih ds h1 h2]
      · rw [charListLe, if_neg hcd, decide_eq_true_eq] at h1
        rw [charListLe, if_neg (Ne.symm hcd), decide_eq_true_eq] at h2
        exact absurd h2 (lt_asymm h1)

theorem strLe_antisymm (a b : String) :
    strLe a b = true → strLe b a = true → a = b := by
  intro h1 h2
  have hd : a.data = b.data := charListLe_antisymm a.data b.data h1 h2
  exact String.toList_inj.1 hd

theorem compactAdj_sublist : ∀ l : List String, List.Sublist (compactAdj l) l
  | [] => by simp [compactAdj]
  | [a] => by simp [compactAdj]
  | a :: b :: rest => by
    by_cases h : a = b
    · rw [compactAdj, if_pos h]
      exact (compactAdj_sublist (b :: rest)).cons a
    · rw [compactAdj, if_neg h]
      exact (compactAdj_sublist (b :: rest)).cons₂ a

theorem mem_compactAdj : ∀ (l : List String) (t : String), t ∈ compactAdj l ↔ t ∈ l := by
  intro l
  induction l with
  | nil => intro t; simp [compactAdj]
  | cons a rest ih =>
    intro t
    match rest, ih with
    | [], _ => simp [compactAdj]
    | b :: rest2, ih =>
      by_cases h : a = b
      · rw [compactAdj, if_pos h]
        rw [ih t]
        constructor
        · intro hm
          exact List.mem_cons_of_mem a hm
        · intro hm
          rcases List.mem_cons.1 hm with hm | hm
          · exact hm ▸ h ▸ List.mem_cons_self b rest2
          · exact hm
      · rw [compactAdj, if_neg h]
        constructor
        · intro hm
          rcases List.mem_cons.1 hm with hm | hm
          · exact hm ▸ List.mem_cons_self a _
          · exact List.mem_cons_of_mem a ((ih t).1 hm)
        · intro hm
          rcases List.mem_cons.1 hm with hm | hm
          · exact hm ▸ List.mem_cons_self a _
          · exact List.mem_cons_of_mem a ((ih t).2 hm)

theorem compactAdj_sorted (l : List String)
    (h : List.Sorted (fun a b : String => strLe a b = true) l) :
    List.Sorted (fun a b : String => strLe a b = true) (compactAdj l) :=
  h.sublist (compactAdj_sublist l)

theorem compactAdj_nodup : ∀ l : List String,
    List.Sorted (fun a b : String => strLe a b = true) l → (compactAdj l).Nodup := by
  intro l
  induction l with
  | nil => intro h; simp [compactAdj]
  | cons a rest ih =>
    intro h
    match rest, ih, h with
    | [], _, _ => simp [compactAdj]
    | b :: rest2, ih, h =>
      have htail : List.Sorted (fun a b : String => strLe a b = true) (b :: rest2) := h.of_cons
      by_cases hab : a = b
      · rw [compactAdj, if_pos hab]
        exact ih htail
      · rw [compactAdj, if_neg hab]
        refine List.nodup_cons.2 ⟨?_, ih htail⟩
        intro hmem
        have hmem2 : a ∈ b :: rest2 := (mem_compactAdj _ a).1 hmem
        have hab2 : strLe a b = true := (List.sorted_cons.1 h).1 b (List.mem_cons_self b rest2)
        have hba : strLe b a = true := by
          rcases List.mem_cons.1 hmem2 with he | he
          · rw [← he]
            exact strLe_refl a
          · exact (List.sorted_cons.1 htail).1 a he
        exact hab (strLe_antisymm a b hab2 hba)

theorem sortStrings_sorted (l : List String) :
    List.Sorted (fun a b : String => strLe a b = true) (sortStrings l) :=
  @List.sorted_insertionSort String (fun a b => strLe a b = true) _
    ⟨fun a b => strLe_total a b⟩ ⟨fun a b c => strLe_trans a b c⟩ l

theorem mem_sortStrings (l : List String) (t : String) : t ∈ sortStrings l ↔ t ∈ l :=
  (List.perm_insertionSort _ l).mem_iff

theorem mergeTargets_sorted (a b : List String) :
    List.Sorted (fun a b : String => strLe a b = true) (mergeTargets a b) :=
  compactAdj_sorted _ (sortStrings_sorted _)

theorem mergeTargets_nodup (a b : List String) : (mergeTargets a b).Nodup :=
  compactAdj_nodup _ (sortStrings_sorted _)

theorem mem_mergeTargets (a b : List String) (t : String) :
    t ∈ mergeTargets a b ↔ t ∈ a ∨ t ∈ b := by
  rw [mergeTargets, mem_compactAdj, mem_sortStrings, List.mem_append]

theorem alLookup_insertUpdateNew_self (isV6 : Bool) (m : List (PiholeEntryKey × Endpoint))
    (e : Endpoint) :
    alLookup (insertUpdateNew isV6 m e) (entryKey e)
      = some (mergeStep isV6 (alLookup m (entryKey e)) e) := by
  unfold insertUpdateNew mergeStep
  cases isV6 <;> rcases hlook : alLookup m (entryKey e) with _ | ex <;>
    simp [hlook, alLookup_alInsert_self]

theorem alLookup_insertUpdateNew_ne (isV6 : Bool) (m : List (PiholeEntryKey × Endpoint))
    (e : Endpoint) (k : PiholeEntryKey) (h : entryKey e ≠ k) :
    alLookup (insertUpdateNew isV6 m e) k = alLookup m k := by
  unfold insertUpdateNew
  exact alLookup_alInsert_ne _ _ _ _ h

theorem foldl_insertUpdateNew_lookup (isV6 : Bool) (k : PiholeEntryKey) :
    ∀ (eps : List Endpoint) (m : List (PiholeEntryKey × Endpoint)),
      alLookup (eps.foldl (insertUpdateNew isV6) m) k
        = (eps.filter (fun e => entryKey e == k)).foldl
            (fun acc e => some (mergeStep isV6 acc e)) (alLookup m k) := by
  intro eps
  induction eps with
  | nil => intro m; simp
  | cons e rest ih =>
    intro m
    simp only [List.foldl_cons, List.filter_cons]
    by_cases hk : entryKey e = k
    · have hkb : (entryKey e == k) = true := by simp [hk]
      rw [hkb]
      simp only [if_true, List.foldl_cons]
      rw [ih (insertUpdateNew isV6 m e)]
      rw [← hk, alLookup_insertUpdateNew_self]
    · have hkb : (entryKey e == k) = false := by simp [hk]
      rw [hkb]
      simp only [Bool.false_eq_true, if_false]
      rw [ih (insertUpdateNew isV6 m e), alLookup_insertUpdateNew_ne isV6 m e k hk]

theorem groupFold_from_acc :
    ∀ (g : List Endpoint) (acc : Endpoint),
      List.Sorted (fun a b : String => strLe a b = true) acc.targets → acc.targets.Nodup →
      ∃ fin, g.foldl (fun a e => some (mergeStep true a e)) (some acc) = some fin
        ∧ fin.dnsName = acc.dnsName ∧ fin.recordType = acc.recordType
        ∧ List.Sorted (fun a b : String => strLe a b = true) fin.targets ∧ fin.targets.Nodup
        ∧ (∀ t, t ∈ fin.targets ↔ t ∈ acc.targets ∨ ∃ e ∈ g, t ∈ e.targets) := by
  intro g
  induction g with
  | nil =>
    intro acc hs hn
    exact ⟨acc, rfl, rfl, rfl, hs, hn, by simp⟩
  | cons e rest ih =>
    intro acc hs hn
    simp only [List.foldl_cons]
    have hstep : mergeStep true (some acc) e
        = { acc with targets := mergeTargets acc.targets e.targets } := rfl
    rw [hstep]
    rcases ih { acc with targets := mergeTargets acc.targets e.targets }
        (mergeTargets_sorted _ _) (mergeTargets_nodup _ _) with
      ⟨fin, hfold, hdns, hrt, hsort, hnd, hmem⟩
    refine ⟨fin, hfold, hdns, hrt, hsort, hnd, ?_⟩
    intro t
    rw [hmem t]
    show t ∈ mergeTargets acc.targets e.targets ∨ _ ↔ _
    rw [mem_mergeTargets]
    constructor
    · rintro ((h | h) | ⟨e2, he2, ht⟩)
      · exact Or.inl h
      · exact Or.inr ⟨e, List.mem_cons_self e rest, h⟩
      · exact Or.inr ⟨e2, List.mem_cons_of_mem e he2, ht⟩
    · rintro (h | ⟨e2, he2, ht⟩)
      · exact Or.inl (Or.inl h)
      · rcases List.mem_cons.1 he2 with he2 | he2
        · exact Or.inl (Or.inr (he2 ▸ ht))
        · exact Or.inr ⟨e2, he2, ht⟩

theorem mergeStep_false_eq (acc : Option Endpoint) (e : Endpoint) :
    mergeStep false acc e = e := by
  cases acc <;> rfl

/-- C3 (amended): in the v6 `updateNew` map, a key shared by two or more
`UpdateNew` records maps to a single record carrying the first record's
name and type whose targets are the union of the group's targets, sorted
and de-duplicated; a key with exactly one record keeps that record
verbatim (its targets are *not* sorted or de-duplicated); for API v5 no
merge occurs and the last record of the group wins (earlier duplicates
are superseded, not handled independently). -/
theorem updateNew_merge_characterized (eps : List Endpoint) (k : PiholeEntryKey) :
    (∀ e1 e2 g ep, eps.filter (fun e => entryKey e == k) = e1 :: e2 :: g →
        alLookup (buildUpdateNew true eps) k = some ep →
        ep.dnsName = e1.dnsName ∧ ep.recordType = e1.recordType
          ∧ List.Sorted (fun a b : String => strLe a b = true) ep.targets ∧ ep.targets.Nodup
          ∧ (∀ t, t ∈ ep.targets ↔ ∃ e ∈ eps.filter (fun e => entryKey e == k), t ∈ e.targets))
    ∧ (∀ e1, eps.filter (fun e => entryKey e == k) = [e1] →
        alLookup (buildUpdateNew true eps) k = some e1)
    ∧ (∀ g e1, eps.filter (fun e => entryKey e == k) = g ++ [e1] →
        alLookup (buildUpdateNew false eps) k = some e1) := by
  have hred : ∀ isV6, alLookup (buildUpdateNew isV6 eps) k
      = (eps.filter (fun e => entryKey e == k)).foldl
          (fun acc e => some (mergeStep isV6 acc e)) none := by
    intro isV6
    unfold buildUpdateNew
    rw [foldl_insertUpdateNew_lookup]
    rfl
  refine ⟨?_, ?_, ?_⟩
  · intro e1 e2 g ep hfil hlook
    rw [hred true, hfil] at hlook
    simp only [List.foldl_cons] at hlook
    have hacc : mergeStep true (some (mergeStep true none e1)) e2
        = { e1 with targets := mergeTargets e1.targets e2.targets } := rfl
    rw [hacc] at hlook
    rcases groupFold_from_acc g { e1 with targets := mergeTargets e1.targets e2.targets }
        (mergeTargets_sorted _ _) (mergeTargets_nodup _ _) with
      ⟨fin, hfold, hdns, hrt, hsort, hnd, hmem⟩
    rw [hfold] at hlook
    have hep : ep = fin := (Option.some.inj hlook).symm
    subst hep
    refine ⟨hdns, hrt, hsort, hnd, ?_⟩
    intro t
    rw [hmem t, hfil]
    show t ∈ mergeTargets e1.targets e2.targets ∨ _ ↔ _
    rw [mem_mergeTargets]
    constructor
    · rintro ((h | h) | ⟨e3, he3, ht⟩)
      · exact ⟨e1, List.mem_cons_self _ _, h⟩
      · exact ⟨e2, List.mem_cons_of_mem _ (List.mem_cons_self _ _), h⟩
      · exact ⟨e3, List.mem_cons_of_mem _ (List.mem_cons_of_mem _ he3), ht⟩
    · rintro ⟨e3, he3, ht⟩
      rcases List.mem_cons.1 he3 with he3 | he3
      · exact Or.inl (Or.inl (he3 ▸ ht))
      · rcases List.mem_cons.1 he3 with he3 | he3
        · exact Or.inl (Or.inr (he3 ▸ ht))
        · exact Or.inr ⟨e3, he3, ht⟩
  · intro e1 hfil
    rw [hred true, hfil]
    rfl
  · intro g e1 hfil
    rw [hred false, hfil, List.foldl_append]
    simp only [List.foldl_cons, List.foldl_nil]
    rw [mergeStep_false_eq]

/-- C3 witness: merging `{a,A,[b,a]}` and `{a,A,[c,a]}` yields sorted,
de-duplicated targets. -/
theorem updateNew_merge_characterized_witness :
    List.Sorted (fun a b : String => strLe a b = true) mergedPair.targets
      ∧ mergedPair.targets.Nodup := by
  have h := (updateNew_merge_characterized [mergeLeft, mergeRight] (entryKey mergeLeft)).1
    mergeLeft mergeRight [] mergedPair (by decide) (by decide)
  exact ⟨h.2.2.1, h.2.2.2.1⟩

/-- C3 counterexample: for a key with a single `UpdateNew` record the v6
reconciler keeps the record's targets verbatim — the create issued for
`{a,A,[b,b,a]}` carries targets that are neither de-duplicated nor sorted,
contradicting the claim that the per-key merged record always carries the
de-duplicated, sorted union. -/
theorem updateNew_merge_singleton_cex :
    applyChangesCalls "6"
        { create := [], delete := [], updateOld := [], updateNew := [dupSingleton] }
      = [RecordCall.createRecord dupSingleton]
      ∧ dupSingleton.targets = ["b", "b", "a"]
      ∧ ¬ dupSingleton.targets.Nodup := by
  refine ⟨by decide, by decide, by decide⟩

/-- C6: a record whose DNS name does not match the active DomainFilter is
silently skipped by `apply`: zero backend requests and a nil error, for
creates and deletes alike. -/
theorem filter_mismatch_skips (matchFn : String → Bool) (dryRun : Bool) (meth : Method)
    (ep : Endpoint) (h : matchFn ep.dnsName = false) :
    applyClient matchFn dryRun meth ep = ([], none) := by
  unfold applyClient
  rw [h]
  rfl

/-- C6 witness: a create for a record rejected by the filter issues no
request and returns no error. -/
theorem filter_mismatch_skips_witness :
    applyClient (fun _ => false) false Method.put plainARecord = ([], none) :=
  filter_mismatch_skips (fun _ => false) false Method.put plainARecord rfl

/-- C4 (amended): a record that passes the domain filter but has an
unsupported shape — a wildcard name, or a CNAME with more than one target —
produces zero backend requests and a soft error; but `ApplyChanges`
propagates that error immediately (`return err`), so the remaining records
of the batch are *not* applied: the two-record batch `softBatch` ends with
the soft error and no request at all, the well-formed second record
included. -/
theorem unsupported_shape_soft_error :
    (∀ (matchFn : String → Bool) (meth : Method) (ep : Endpoint),
        matchFn ep.dnsName = true → urlSupported ep.recordType = true →
        ep.targets.isEmpty = false →
        (containsStar ep.dnsName = true
          ∨ (ep.recordType = "CNAME" ∧ 1 < ep.targets.length)) →
        (applyClient matchFn false meth ep).1 = []
          ∧ ∃ msg, (applyClient matchFn false meth ep).2 = some (PiholeError.soft msg))
    ∧ applyChangesRun "6" (clientApi (fun _ => true) false) softBatch
        = ([], some (PiholeError.soft
            "UNSUPPORTED: Pihole CNAME records cannot have multiple targets")) := by
  constructor
  · intro matchFn meth ep hm hs hne hshape
    unfold applyClient
    rw [hm, hs, hne]
    simp only [Bool.not_true, Bool.false_eq_true, if_false]
    by_cases hstar : containsStar ep.dnsName = true
    · rw [if_pos hstar]
      exact ⟨rfl, _, rfl⟩
    · rw [if_neg hstar]
      rcases hshape with hshape | hshape
      · exact absurd hshape hstar
      · have hcn : (ep.recordType == "CNAME" && decide (ep.targets.length > 1)) = true := by
          simp [hshape.1, hshape.2]
        rw [hcn]
        exact ⟨rfl, _, rfl⟩
  · decide

/-- C4 witness: a create for a two-target CNAME issues no backend request. -/
theorem unsupported_shape_soft_error_witness :
    (applyClient (fun _ => true) false Method.put cnameTwoTargets).1 = [] :=
  (unsupported_shape_soft_error.1 (fun _ => true) Method.put cnameTwoTargets rfl rfl rfl
    (Or.inr ⟨rfl, by decide⟩)).1

/-- C4 counterexample: the claim says the remaining records of the batch are
still applied after a soft error; but on `softBatch` — a two-target CNAME
followed by a well-formed A record — `ApplyChanges` stops at the soft
error: no request is issued at all, although applying the A record alone
would issue one. -/
theorem soft_error_aborts_batch_cex :
    applyChangesRun "6" (clientApi (fun _ => true) false) softBatch
        = ([], some (PiholeError.soft
            "UNSUPPORTED: Pihole CNAME records cannot have multiple targets"))
      ∧ (applyClient (fun _ => true) false Method.put plainARecord).1
        = [{ method := Method.put, recordType := "A", dnsName := "a.example.com",
             target := "1.2.3.4", ttl := none }] := by
  refine ⟨by decide, by decide⟩

/-- C5 (amended): within a single 401 handling, the refresh loop is bounded —
after three token refreshes whose follow-up introspection still reports the
token invalid, `do` fails with the `maxTries` ("max tries reached for token
renewal") error; and the expiry round-trip 401 / introspection-invalid /
refresh / introspection-valid leads to exactly one re-issued request and
overall success.  The bound applies only to consecutive refreshes inside
one 401 handling: a successful re-attempt resets it (see the
counterexample). -/
theorem token_renewal_bounded_per_handling :
    (doM 30 tokState Method.get
        [resp401, respIntroInvalid, respAuth, respIntroInvalid, respAuth,
         respIntroInvalid, respAuth]).1 = Except.error DoErr.maxTries
      ∧ (doM 30 tokState Method.get
          [resp401, respIntroInvalid, respAuth, respIntroValid, respOK]).1 = Except.ok respOK
      ∧ (doM 30 tokState Method.get
          [resp401, respIntroInvalid, respAuth, respIntroValid, respOK]).2.2.2 = 2 := by
  refine ⟨rfl, rfl, rfl⟩

/-- C5 counterexample: when the backend keeps answering 401 while
introspection reports the token valid, the counter is reset by every
re-attempt: after four full 401/valid-introspection cycles (five sends of
the request, beyond the claimed bound of 3) the call still succeeds instead
of failing with a renewal-exhausted error. -/
theorem token_renewal_unbounded_cex :
    (doM 30 tokState Method.get
        [resp401, respIntroValid, resp401, respIntroValid, resp401, respIntroValid,
         resp401, respIntroValid, respOK]).1 = Except.ok respOK
      ∧ (doM 30 tokState Method.get
          [resp401, respIntroValid, resp401, respIntroValid, resp401, respIntroValid,
           resp401, respIntroValid, respOK]).2.2.2 = 5 := by
  refine ⟨rfl, rfl⟩

/-- C7 (amended): for a client without a session token (so the 401 renewal
path is not taken), a response is classified as success exactly when its
status is 200/201/204, or the error envelope's message contains
"Item already present" (checked for *any* request method, not only
creates), or the status is 404 on a `DELETE`; in particular a delete
answered with 404 succeeds. -/
theorem no_token_success_classification (n : Nat) (st : ClientState) (meth : Method)
    (r : Resp) (rest : List Resp) (h : st.token = "") :
    (doM (n + 1) st meth (r :: rest)).1 = Except.ok r
      ↔ ((r.status = 200 ∨ r.status = 201 ∨ r.status = 204)
          ∨ strContainsSub r.errMessage "Item already present" = true
          ∨ (r.status = 404 ∧ meth = Method.delete)) := by
  have hcls : (r.status == 200 || r.status == 201 || r.status == 204) = true
      ↔ (r.status = 200 ∨ r.status = 201 ∨ r.status = 204) := by
    simp [or_assoc]
  have h404 : (r.status == 404 && meth == Method.delete) = true
      ↔ (r.status = 404 ∧ meth = Method.delete) := by
    simp
  simp only [doM]
  by_cases h1 : (r.status == 200 || r.status == 201 || r.status == 204) = true
  · rw [if_pos h1]
    simp only [hcls] at h1
    constructor
    · intro _
      exact Or.inl h1
    · intro _
      rfl
  · rw [if_neg h1]
    by_cases h2 : strContainsSub r.errMessage "Item already present" = true
    · rw [if_pos h2]
      constructor
      · intro _
        exact Or.inr (Or.inl h2)
      · intro _
        rfl
    · rw [if_neg h2]
      by_cases h3 : (r.status == 404 && meth == Method.delete) = true
      · rw [if_pos h3]
        constructor
        · intro _
          exact Or.inr (Or.inr (h404.1 h3))
        · intro _
          rfl
      · rw [if_neg h3]
        have h4 : (r.status == 401 && st.token != "") = false := by
          rw [h]
          simp
        rw [h4]
        simp only [Bool.false_eq_true, if_false]
        constructor
        · intro hx
          cases hx
        · intro hx
          rcases hx with hx | hx | hx
          · exact absurd (hcls.2 hx) h1
          · exact absurd hx h2
          · exact absurd (h404.2 hx) h3

/-- C7 witness: a delete answered with HTTP 404 returns success. -/
theorem no_token_success_classification_witness :
    (doM 5 noTokState Method.delete [resp404]).1 = Except.ok resp404 :=
  (no_token_success_classification 4 noTokState Method.delete resp404 [] rfl).mpr
    (Or.inr (Or.inr ⟨rfl, rfl⟩))

/-- C7 counterexample: a `DELETE` answered with HTTP 500 and an error
envelope containing "Item already present" is classified as success —
neither of the claim's "exactly two" cases (already-exists on a *create*,
404 on a delete) covers it, so the claimed enumeration is wrong: the
message check is method-independent. -/
theorem already_present_any_method_cex :
    (doM 5 noTokState Method.delete [respAlready]).1 = Except.ok respAlready
      ∧ respAlready.status = 500 ∧ respAlready.errMessage = "Item already present" := by
  refine ⟨rfl, rfl, rfl⟩

theorem foldl_filter_of_skip {α β : Type} (f : β → α → β) (p : α → Bool)
    (hf : ∀ b a, p a = false → f b a = b) :
    ∀ (l : List α) (b : β), (l.filter p).foldl f b = l.foldl f b := by
  intro l
  induction l with
  | nil => intro b; rfl
  | cons a rest ih =>
    intro b
    by_cases hp : p a = true
    · rw [List.filter_cons_of_pos hp]
      simp only [List.foldl_cons]
      exact ih (f b a)
    · have hp2 : p a = false := by
        cases hpa : p a
        · rfl
        · exact absurd hpa hp
      rw [List.filter_cons_of_neg (by rw [hp2]; exact Bool.false_ne_true)]
      simp only [List.foldl_cons]
      rw [hf b a hp2]
      exact ih b

theorem listStep_malformed (rtype : String) (m : List (String × Endpoint)) (rec : String)
    (h : (fieldsOf rec).length < 2) : listStep rtype m rec = m := by
  unfold listStep
  match hf : fieldsOf rec with
  | [] => rfl
  | [r0] => rfl
  | r0 :: r1 :: rest =>
    rw [hf] at h
    simp only [List.length_cons] at h
    omega

/-- C9: `listRecords` skips every entry that splits into fewer than two
fields and still returns the endpoints built from the remaining
well-formed entries (its result equals the result on the well-formed
sublist; no error is possible at this stage — the model is total). -/
theorem listRecords_skips_malformed (rtype : String) (results : List String) :
    listRecords rtype results
      = listRecords rtype (results.filter (fun r => 2 ≤ (fieldsOf r).length)) := by
  unfold listRecords
  rw [foldl_filter_of_skip (listStep rtype) (fun r => 2 ≤ (fieldsOf r).length)]
  intro m rec hm
  refine listStep_malformed rtype m rec ?_
  simpa using hm

theorem addListed_targets (p : String → Bool) (m : List (String × Endpoint))
    (dnsName rtype : String) (ttl : Int) (target : String)
    (hm : ∀ kv ∈ m, ∀ t ∈ kv.2.targets, p t = true) (hp : p target = true) :
    ∀ kv ∈ addListed m dnsName rtype ttl target, ∀ t ∈ kv.2.targets, p t = true := by
  intro kv hkv t ht
  unfold addListed at hkv
  rcases hlook : alLookup m dnsName with _ | oldEp <;> rw [hlook] at hkv <;> dsimp only at hkv
  · rcases mem_alInsert _ _ _ kv hkv with he | he
    · rw [he] at ht
      simp only [List.mem_singleton] at ht
      exact ht ▸ hp
    · exact hm kv he t ht
  · rcases mem_alInsert _ _ _ kv hkv with he | he
    · rw [he] at ht
      simp only [List.mem_append, List.mem_singleton] at ht
      rcases ht with ht | ht
      · exact hm (dnsName, oldEp) (alLookup_mem m dnsName oldEp hlook) t ht
      · exact ht ▸ hp
    · exact hm kv he t ht

theorem listStep_A_targets (m : List (String × Endpoint)) (rec : String)
    (hm : ∀ kv ∈ m, ∀ t ∈ kv.2.targets, isValidIPv4 t = true) :
    ∀ kv ∈ listStep "A" m rec, ∀ t ∈ kv.2.targets, isValidIPv4 t = true := by
  unfold listStep
  rcases hf : fieldsOf rec with _ | ⟨r0, _ | ⟨r1, rest⟩⟩
  · exact hm
  · exact hm
  · dsimp only
    by_cases hv : isValidIPv4 r0 = true
    · rw [if_pos hv]
      exact addListed_targets isValidIPv4 m r1 "A" 0 r0 hm hv
    · rw [if_neg hv]
      exact hm

theorem listStep_AAAA_targets (m : List (String × Endpoint)) (rec : String)
    (hm : ∀ kv ∈ m, ∀ t ∈ kv.2.targets, isValidIPv6 t = true) :
    ∀ kv ∈ listStep "AAAA" m rec, ∀ t ∈ kv.2.targets, isValidIPv6 t = true := by
  unfold listStep
  rcases hf : fieldsOf rec with _ | ⟨r0, _ | ⟨r1, rest⟩⟩
  · exact hm
  · exact hm
  · dsimp only
    by_cases hv : isValidIPv6 r0 = true
    · rw [if_pos hv]
      exact addListed_targets isValidIPv6 m r1 "AAAA" 0 r0 hm hv
    · rw [if_neg hv]
      exact hm

theorem foldl_listStep_inv (rtype : String) (p : String → Bool)
    (hstep : ∀ (m : List (String × Endpoint)) (rec : String),
      (∀ kv ∈ m, ∀ t ∈ kv.2.targets, p t = true) →
      ∀ kv ∈ listStep rtype m rec, ∀ t ∈ kv.2.targets, p t = true) :
    ∀ (l : List String) (m : List (String × Endpoint)),
      (∀ kv ∈ m, ∀ t ∈ kv.2.targets, p t = true) →
      ∀ kv ∈ l.foldl (listStep rtype) m, ∀ t ∈ kv.2.targets, p t = true := by
  intro l
  induction l with
  | nil => intro m hm; exact hm
  | cons rec rest ih =>
    intro m hm
    simp only [List.foldl_cons]
    exact ih _ (hstep m rec hm)

/-- C10: on a mixed hosts listing, `listRecords` with record type A returns
only endpoints all of whose targets are valid IPv4 addresses, and with
record type AAAA only endpoints all of whose targets are valid IPv6
addresses; entries of the other address family are silently omitted. -/
theorem listRecords_family_filtered (results : List String) :
    (∀ ep ∈ listRecords "A" results, ∀ t ∈ ep.targets, isValidIPv4 t = true)
      ∧ (∀ ep ∈ listRecords "AAAA" results, ∀ t ∈ ep.targets, isValidIPv6 t = true) := by
  constructor
  · intro ep hep t ht
    rcases List.mem_map.1 hep with ⟨kv, hkv, hkve⟩
    have := foldl_listStep_inv "A" isValidIPv4 listStep_A_targets results []
      (by intro kv h; cases h) kv hkv t (hkve ▸ ht)
    exact this
  · intro ep hep t ht
    rcases List.mem_map.1 hep with ⟨kv, hkv, hkve⟩
    exact foldl_listStep_inv "AAAA" isValidIPv6 listStep_AAAA_targets results []
      (by intro kv h; cases h) kv hkv t (hkve ▸ ht)

/-- C10 witness: on the mixed listing `hostsMixed`, the A listing keeps the
IPv4 entry (whose target is a valid IPv4 address) and omits the IPv6 one,
and symmetrically for the AAAA listing. -/
theorem listRecords_family_filtered_witness :
    isValidIPv4 "1.2.3.4" = true ∧ isValidIPv6 "fe80::1" = true
      ∧ listRecords "A" hostsMixed
        = [{ dnsName := "a.example.com", recordType := "A", recordTTL := 0,
             targets := ["1.2.3.4"] }]
      ∧ listRecords "AAAA" hostsMixed
        = [{ dnsName := "a.example.com", recordType := "AAAA", recordTTL := 0,
             targets := ["fe80::1"] }] := by
  refine ⟨?_, ?_, by decide, by decide⟩
  · exact (listRecords_family_filtered hostsMixed).1
      { dnsName := "a.example.com", recordType := "A", recordTTL := 0,
        targets := ["1.2.3.4"] } (by decide) "1.2.3.4" (by decide)
  · exact (listRecords_family_filtered hostsMixed).2
      { dnsName := "a.example.com", recordType := "AAAA", recordTTL := 0,
        targets := ["fe80::1"] } (by decide) "fe80::1" (by decide)

theorem isSuffixOf_append_self (l1 l2 : List Char) : l2.isSuffixOf (l1 ++ l2) = true := by
  rw [List.isSuffixOf_iff_suffix]
  exact List.suffix_append l1 l2

theorem isSuffixOf_longer_false (c : Char) (l : List Char) :
    (c :: l).isSuffixOf l = false := by
  cases he : (c :: l).isSuffixOf l
  · rfl
  · exfalso
    have hs : (c :: l) <:+ l := List.isSuffixOf_iff_suffix.1 he
    have hlen := hs.length_le
    simp only [List.length_cons] at hlen
    omega

theorem ruleMatches_dot_subdomain (rl nm : List Char) :
    ruleMatches ('.' :: rl) (nm ++ '.' :: rl) = true := by
  unfold ruleMatches
  rw [if_pos (show headIsDot ('.' :: rl) = true from rfl)]
  exact isSuffixOf_append_self nm ('.' :: rl)

theorem ruleMatches_dot_apex (rl : List Char) :
    ruleMatches ('.' :: rl) rl = false := by
  unfold ruleMatches
  rw [if_pos (show headIsDot ('.' :: rl) = true from rfl)]
  exact isSuffixOf_longer_false '.' rl

theorem ruleMatches_plain_self (rl : List Char) (h : headIsDot rl = false) :
    ruleMatches rl rl = true := by
  unfold ruleMatches
  rw [if_neg (by rw [h]; exact Bool.false_ne_true)]
  simp

theorem ruleMatches_plain_subdomain (rl nm : List Char) (h : headIsDot rl = false) :
    ruleMatches rl (nm ++ '.' :: rl) = true := by
  unfold ruleMatches
  rw [if_neg (by rw [h]; exact Bool.false_ne_true)]
  rw [isSuffixOf_append_self nm ('.' :: rl)]
  simp

theorem domainFilterMatch_single (x cand : String)
    (hx : normalizeDomain x = x) (hxne : x.data.isEmpty = false)
    (hc : normalizeDomain cand = cand) :
    domainFilterMatch [x] [] cand = ruleMatches x.data cand.data := by
  unfold domainFilterMatch prepareFilters matchFilter
  rw [hc]
  simp [hx, hxne]

/-- C8: for the (spec-modelled) suffix-mode DomainFilter, a normalized rule
written with a leading dot matches the strict subdomain `sub.rule` but not
the apex `rule` itself, while the same rule without the leading dot
matches both the apex and the subdomain. -/
theorem leading_dot_rule_semantics (rule sub : String)
    (hnr : normalizeDomain rule = rule)
    (hnd : normalizeDomain (withLeadingDot rule) = withLeadingDot rule)
    (hns : normalizeDomain (subdomainOf sub rule) = subdomainOf sub rule)
    (hne : rule ≠ "") (hnodot : headIsDot rule.data = false) :
    domainFilterMatch [withLeadingDot rule] [] (subdomainOf sub rule) = true
      ∧ domainFilterMatch [withLeadingDot rule] [] rule = false
      ∧ domainFilterMatch [rule] [] rule = true
      ∧ domainFilterMatch [rule] [] (subdomainOf sub rule) = true := by
  have hruleNE : rule.data.isEmpty = false := by
    cases hd : rule.data with
    | nil => exact absurd (String.toList_inj.1 hd) hne
    | cons c cs => rfl
  refine ⟨?_, ?_, ?_, ?_⟩
  · rw [domainFilterMatch_single _ _ hnd rfl hns]
    exact ruleMatches_dot_subdomain rule.data sub.data
  · rw [domainFilterMatch_single _ _ hnd rfl hnr]
    exact ruleMatches_dot_apex rule.data
  · rw [domainFilterMatch_single _ _ hnr hruleNE hnr]
    exact ruleMatches_plain_self rule.data hnodot
  · rw [domainFilterMatch_single _ _ hnr hruleNE hns]
    exact ruleMatches_plain_subdomain rule.data sub.data hnodot

/-- C8 witness: the spec's example `.example.org` / `example.org` against
`sub.example.org` and `example.org`. -/
theorem leading_dot_rule_semantics_witness :
    domainFilterMatch [".example.org"] [] "sub.example.org" = true
      ∧ domainFilterMatch [".example.org"] [] "example.org" = false
      ∧ domainFilterMatch ["example.org"] [] "example.org" = true
      ∧ domainFilterMatch ["example.org"] [] "sub.example.org" = true := by
  have h := leading_dot_rule_semantics "example.org" "sub" (by decide) (by decide) (by decide)
    (by decide) (by decide)
  exact h
